import Mathlib

/-!
Shallow embedding of the commit-graph writer (`src/commit-graph.c`) and
proofs of the specification's claims about it.

Modelling conventions:
* byte sequences (hashes, file contents) are `List Nat`, each element a byte;
* machine integers are `Nat`; serialization (`be32`) reduces each emitted
  byte modulo 256 exactly as `htonl` + byte extraction does in C, so a
  `uint32_t` value and its `Nat` counterpart produce the same bytes;
* the streaming hash file is modelled by the list of bytes appended to it;
* external collaborators (`lookup_commit` + `parse_commit`) are modelled by
  a total store function from identifiers to commit metadata.
-/

namespace CommitGraph

/-- Constants from commit-graph.c. -/
def GRAPH_SIGNATURE : Nat := 0x43475048
def GRAPH_CHUNKID_OIDFANOUT : Nat := 0x4f494446
def GRAPH_CHUNKID_OIDLOOKUP : Nat := 0x4f49444c
def GRAPH_CHUNKID_DATA : Nat := 0x43444154
def GRAPH_CHUNKID_LARGEEDGES : Nat := 0x45444745
def GRAPH_VERSION : Nat := 1
def GRAPH_OID_VERSION : Nat := 1
def GRAPH_OID_LEN : Nat := 20
def GRAPH_LARGE_EDGES_NEEDED : Nat := 0x80000000
def GRAPH_PARENT_MISSING : Nat := 0x7fffffff
def GRAPH_PARENT_NONE : Nat := 0x70000000
def GRAPH_LAST_EDGE : Nat := 0x80000000
def GRAPH_FANOUT_SIZE : Nat := 4 * 256
def GRAPH_CHUNKLOOKUP_WIDTH : Nat := 12
def GRAPH_CHUNKLOOKUP_SIZE : Nat := 5 * GRAPH_CHUNKLOOKUP_WIDTH

/-- An object identifier: a sequence of bytes (20 bytes for SHA-1). -/
abbrev Oid := List Nat

/-- `oidcmp` = `memcmp` on the identifier bytes: three-way lexicographic
byte comparison (on equal-length lists this is exactly `memcmp`). -/
def oidcmp : Oid → Oid → Int
  | [], [] => 0
  | [], _ :: _ => -1
  | _ :: _, [] => 1
  | a :: as, b :: bs =>
    if a < b then -1 else if b < a then 1 else oidcmp as bs

def oidLt (a b : Oid) : Prop := oidcmp a b < 0

def oidLe (a b : Oid) : Prop := oidcmp a b ≤ 0

instance : DecidableRel oidLt := fun a b => by unfold oidLt; infer_instance

instance : DecidableRel oidLe := fun a b => by unfold oidLe; infer_instance

/-- Metadata that `parse_commit` populates from the external object store. -/
structure CommitData where
  tree : Oid
  parents : List Oid
  date : Nat
deriving DecidableEq, Inhabited

/-- A parsed commit handle: its own identifier plus parsed metadata. -/
structure Commit where
  oid : Oid
  tree : Oid
  parents : List Oid
  date : Nat
deriving DecidableEq, Inhabited

/-- The external object store: `lookup_commit` followed by `parse_commit`. -/
def lookupCommit (store : Oid → CommitData) (o : Oid) : Commit :=
  { oid := o
    tree := (store o).tree
    parents := (store o).parents
    date := (store o).date }

/-- Big-endian serialization of a 32-bit value (`htonl` + 4 byte write);
each byte is reduced mod 256, so the value is implicitly taken mod 2^32. -/
def be32 (v : Nat) : List Nat :=
  [v / 2 ^ 24 % 256, v / 2 ^ 16 % 256, v / 2 ^ 8 % 256, v % 256]

/-- Big-endian serialization of a 64-bit offset, written as two
32-bit words `(offset >> 32, offset & 0xffffffff)` as in the C code. -/
def be64 (v : Nat) : List Nat := be32 (v / 2 ^ 32) ++ be32 (v % 2 ^ 32)

/-! ### The binary search `commit_pos` -/

/-- The loop of `commit_pos`, searching `commits[first..last)`.
`some mid` models `return 1` with `*pos = mid`; `none` models `return 0`
(the C code then stores the insertion point in `*pos`, which no caller of
this file's claims observes). -/
def commitPosGo (commits : List Commit) (o : Oid) (first last : Nat) : Option Nat :=
  if h : first < last then
    if oidcmp o (commits.getD (first + (last - first) / 2) default).oid = 0 then
      some (first + (last - first) / 2)
    else if 0 < oidcmp o (commits.getD (first + (last - first) / 2) default).oid then
      commitPosGo commits o (first + (last - first) / 2 + 1) last
    else
      commitPosGo commits o first (first + (last - first) / 2)
  else none
termination_by last - first
decreasing_by
  · omega
  · omega

/-- `commit_pos(commits, nr_commits, oid, &pos)`. -/
def commit_pos (commits : List Commit) (o : Oid) : Option Nat :=
  commitPosGo commits o 0 commits.length

/-! ### Chunk encoders -/

/-- `(*list)->object.oid.hash[0]`: the fan-out key of a commit. -/
def firstByte (c : Commit) : Nat := c.oid.headD 0

/-- The body of `write_graph_chunk_fanout`'s `for (i = 0; i < 256; i++)` loop:
`n` entries remain, `i` is the current fan-out key, `count` commits have been
consumed, `cs` is the unconsumed tail of the sorted commit array. The inner
`while` consumes exactly the leading commits whose first byte equals `i`. -/
def fanoutGo : Nat → Nat → Nat → List Commit → List Nat
  | 0, _, _, _ => []
  | n + 1, i, count, cs =>
    be32 (count + (cs.takeWhile (fun c => firstByte c == i)).length) ++
      fanoutGo n (i + 1) (count + (cs.takeWhile (fun c => firstByte c == i)).length)
        (cs.dropWhile (fun c => firstByte c == i))

def write_graph_chunk_fanout (commits : List Commit) : List Nat :=
  fanoutGo 256 0 0 commits

/-- `write_graph_chunk_oids`: each commit's identifier bytes, in table order. -/
def write_graph_chunk_oids (commits : List Commit) : List Nat :=
  commits.flatMap (fun c => c.oid)

/-- A parent lookup as the DATA/EDGE encoders perform it: the index found by
`commit_pos`, or `GRAPH_PARENT_MISSING` when the search fails. -/
def resolveCode (commits : List Commit) (p : Oid) : Nat :=
  match commit_pos commits p with
  | some i => i
  | none => GRAPH_PARENT_MISSING

/-- First parent slot of a DATA record (`write_graph_chunk_data`, first
`sha1write_be32`). -/
def parent0Slot (commits : List Commit) (c : Commit) : Nat :=
  match c.parents with
  | [] => GRAPH_PARENT_NONE
  | p :: _ => resolveCode commits p

/-- Second parent slot of a DATA record (`write_graph_chunk_data`, second
`sha1write_be32`), given the running `num_large_edges` counter. -/
def parent1Slot (commits : List Commit) (c : Commit) (numLargeEdges : Nat) : Nat :=
  match c.parents with
  | [] => GRAPH_PARENT_NONE
  | [_] => GRAPH_PARENT_NONE
  | _ :: p :: rest =>
    match rest with
    | [] => resolveCode commits p
    | _ :: _ => GRAPH_LARGE_EDGES_NEEDED ||| numLargeEdges

/-- The 8-byte packed date: `htonl((date >> 32) & 0x3)` then `htonl(date)`. -/
def packedDate (date : Nat) : List Nat :=
  be32 (date / 2 ^ 32 % 4) ++ be32 (date % 2 ^ 32)

/-- One 36-byte DATA record: tree hash, two parent slots, packed date. -/
def dataRecord (commits : List Commit) (c : Commit) (numLargeEdges : Nat) : List Nat :=
  c.tree ++ be32 (parent0Slot commits c) ++ be32 (parent1Slot commits c numLargeEdges) ++
    packedDate c.date

/-- How much a commit advances `num_large_edges`: the C code adds
`parent_count - 1` when `parent_count > 2`, else nothing. -/
def largeEdgeCount (c : Commit) : Nat :=
  if 2 < c.parents.length then c.parents.length - 1 else 0

/-- The `while (list < last)` loop of `write_graph_chunk_data`, carrying the
`num_large_edges` counter. -/
def dataGo (commits : List Commit) : List Commit → Nat → List Nat
  | [], _ => []
  | c :: rest, nle => dataRecord commits c nle ++ dataGo commits rest (nle + largeEdgeCount c)

def write_graph_chunk_data (commits : List Commit) : List Nat :=
  dataGo commits commits 0

/-- The inner loop of `write_graph_chunk_large_edges` over `parents->next ...`:
each entry is the resolved index (or `GRAPH_PARENT_MISSING`) OR'd with
`GRAPH_LAST_EDGE` on the final entry. -/
def edgeRunGo (commits : List Commit) : List Oid → List Nat
  | [] => []
  | [p] => [resolveCode commits p ||| GRAPH_LAST_EDGE]
  | p :: q :: rest => resolveCode commits p :: edgeRunGo commits (q :: rest)

/-- The 32-bit overflow entries contributed by one commit: none unless it has
more than two parents, else one entry per parent after the first. -/
def edgeEntriesFor (commits : List Commit) (c : Commit) : List Nat :=
  if c.parents.length ≤ 2 then [] else edgeRunGo commits (c.parents.drop 1)

/-- All overflow entries, in table order. -/
def edgesEntries (commits : List Commit) : List Nat :=
  commits.flatMap (edgeEntriesFor commits)

def write_graph_chunk_large_edges (commits : List Commit) : List Nat :=
  (edgesEntries commits).flatMap be32

/-! ### The commit set builder of `write_commit_graph` -/

/-- `QSORT(oids.list, oids.nr, commit_compare)`: sorting by `oidcmp`.
Because `oidLe` is a total order in which equivalent elements are equal,
every comparison sort produces this unique sorted permutation; we use
insertion sort as its executable embodiment. -/
def sortOids (l : List Oid) : List Oid := List.insertionSort oidLe l

/-- The builder's dedup scan: element `i` is kept iff `i = 0` or it differs
from element `i-1` (`if (i > 0 && !oidcmp(&oids.list[i-1], &oids.list[i]))
continue;`). -/
def dedupGo : Oid → List Oid → List Oid
  | _, [] => []
  | prev, x :: xs => if oidcmp prev x = 0 then dedupGo x xs else x :: dedupGo x xs

def dedupAdjacent : List Oid → List Oid
  | [] => []
  | x :: xs => x :: dedupGo x xs

/-- The commit table: sorted, deduplicated, resolved through the store. -/
def commitTable (store : Oid → CommitData) (l : List Oid) : List Commit :=
  (dedupAdjacent (sortOids l)).map (lookupCommit store)

/-- `num_long_edges` as accumulated by the builder loop. -/
def numLongEdges (commits : List Commit) : Nat :=
  (commits.map largeEdgeCount).sum

/-- `num_chunks = num_long_edges ? 4 : 3`. -/
def numChunksOf (nle : Nat) : Nat := if nle ≠ 0 then 4 else 3

/-! ### Header, chunk lookup table, and the whole file -/

/-- The 8-byte header: magic, version, oid version, chunk count, padding. -/
def graphHeader (numChunks : Nat) : List Nat :=
  be32 GRAPH_SIGNATURE ++ [GRAPH_VERSION % 256, GRAPH_OID_VERSION % 256, numChunks % 256, 0]

/-- The `chunk_ids[5]` array. -/
def chunkIds (nle : Nat) : List Nat :=
  [GRAPH_CHUNKID_OIDFANOUT, GRAPH_CHUNKID_OIDLOOKUP, GRAPH_CHUNKID_DATA,
   if nle ≠ 0 then GRAPH_CHUNKID_LARGEEDGES else 0, 0]

/-- The `chunk_offsets[5]` array exactly as the C code computes it
(note: the base is `8 + GRAPH_CHUNKLOOKUP_SIZE = 68`, sized for 5 lookup
slots regardless of `num_chunks`). -/
def chunkOffsets (nrCommits nle : Nat) : List Nat :=
  [8 + GRAPH_CHUNKLOOKUP_SIZE,
   8 + GRAPH_CHUNKLOOKUP_SIZE + GRAPH_FANOUT_SIZE,
   8 + GRAPH_CHUNKLOOKUP_SIZE + GRAPH_FANOUT_SIZE + GRAPH_OID_LEN * nrCommits,
   8 + GRAPH_CHUNKLOOKUP_SIZE + GRAPH_FANOUT_SIZE + GRAPH_OID_LEN * nrCommits +
     (GRAPH_OID_LEN + 16) * nrCommits,
   8 + GRAPH_CHUNKLOOKUP_SIZE + GRAPH_FANOUT_SIZE + GRAPH_OID_LEN * nrCommits +
     (GRAPH_OID_LEN + 16) * nrCommits + 4 * nle]

/-- The `for (i = 0; i <= num_chunks; i++)` loop writing 12-byte lookup
entries: id, then the offset as two big-endian 32-bit words. -/
def chunkLookupBytes (numChunks nrCommits nle : Nat) : List Nat :=
  (List.range (numChunks + 1)).flatMap fun i =>
    be32 ((chunkIds nle).getD i 0) ++ be64 ((chunkOffsets nrCommits nle).getD i 0)

/-- All bytes `write_commit_graph` streams through the hash writer before
the checksum trailer, as a function of the collected identifier list and
the external store. -/
def write_commit_graph_body (store : Oid → CommitData) (l : List Oid) : List Nat :=
  graphHeader (numChunksOf (numLongEdges (commitTable store l))) ++
    chunkLookupBytes (numChunksOf (numLongEdges (commitTable store l)))
      (commitTable store l).length (numLongEdges (commitTable store l)) ++
    write_graph_chunk_fanout (commitTable store l) ++
    write_graph_chunk_oids (commitTable store l) ++
    write_graph_chunk_data (commitTable store l) ++
    write_graph_chunk_large_edges (commitTable store l)

/-- The finished file: body plus the 20-byte trailer produced by the
streaming hash function `hash` over the body (`sha1close`). -/
def write_commit_graph_file (store : Oid → CommitData) (l : List Oid)
    (hash : List Nat → List Nat) : List Nat :=
  write_commit_graph_body store l ++ hash (write_commit_graph_body store l)

def hexDigit (n : Nat) : Char :=
  if n < 10 then Char.ofNat (48 + n) else Char.ofNat (87 + n)

/-- `sha1_to_hex`: lowercase hex, high nibble of each byte first. -/
def toHex (bytes : List Nat) : String :=
  String.mk (bytes.flatMap fun b => [hexDigit (b / 16 % 16), hexDigit (b % 16)])

/-- The basename `graph-<hex(hash)>.graph` returned by `write_commit_graph`. -/
def graphFileName (store : Oid → CommitData) (l : List Oid)
    (hash : List Nat → List Nat) : String :=
  "graph-" ++ toHex (hash (write_commit_graph_body store l)) ++ ".graph"

/-! ### Sorted tables and binary search correctness -/

/-- The commit table invariant: strictly increasing identifiers. -/
def tableSorted (cs : List Commit) : Prop :=
  (cs.map Commit.oid).Pairwise oidLt

instance : DecidablePred tableSorted := fun cs => by
  unfold tableSorted; infer_instance

/-- The (unique, by sortedness) position of identifier `p` in the table. -/
def tableIndexOf (p : Oid) : List Commit → Nat
  | [] => 0
  | c :: cs => if c.oid = p then 0 else tableIndexOf p cs + 1

/-- Modelled from the spec's words, for refinement comparison only: a parent
slot value is "the resolved table index, or `0x7FFFFFFF` for missing". -/
def specResolve (cs : List Commit) (p : Oid) : Nat :=
  if p ∈ cs.map Commit.oid then tableIndexOf p cs else GRAPH_PARENT_MISSING

/-- Modelled from the spec's words, for refinement comparison only: the
Parent-0 slot is "`0x70000000` if no parents, else the first parent's
table index, else `0x7FFFFFFF`". -/
def specParent0 (cs : List Commit) (c : Commit) : Nat :=
  match c.parents with
  | [] => GRAPH_PARENT_NONE
  | p :: _ => specResolve cs p

/-- Count of table commits whose fan-out key is at most `b`. -/
def countLE (cs : List Commit) (b : Nat) : Nat :=
  (cs.filter (fun c => firstByte c ≤ b)).length

/-- The number of overflow-edge slots consumed by the first `j` table
commits: the running `num_large_edges` counter at commit `j`. -/
def edgeSumBefore (cs : List Commit) (j : Nat) : Nat :=
  ((cs.take j).map largeEdgeCount).sum

/-- A trivial concrete store used by closed evaluation theorems. -/
def store0 : Oid → CommitData :=
  fun _ => { tree := List.replicate 20 0, parents := [], date := 0 }

/-! ### Theorems -/

theorem be32_length (v : Nat) : (be32 v).length = 4 := rfl

theorem be64_length (v : Nat) : (be64 v).length = 8 := rfl

/-! ### Basic properties of `oidcmp` -/

theorem oidcmp_self (a : Oid) : oidcmp a a = 0 := by
  induction a with
  | nil => rfl
  | cons x xs ih => simp [oidcmp, ih]

theorem oidcmp_eq_zero_iff {a b : Oid} : oidcmp a b = 0 ↔ a = b := by
  constructor
  · intro h
    induction a generalizing b with
    | nil => cases b with
      | nil => rfl
      | cons y ys => simp [oidcmp] at h
    | cons x xs ih =>
      cases b with
      | nil => simp [oidcmp] at h
      | cons y ys =>
        by_cases hxy : x < y
        · simp [oidcmp, hxy] at h
        · by_cases hyx : y < x
          · simp [oidcmp, hxy, hyx] at h
          · have hx : x = y := Nat.le_antisymm (Nat.le_of_not_lt hyx) (Nat.le_of_not_lt hxy)
            simp [oidcmp, hxy, hyx] at h
            simp [hx, ih h]
  · intro h; subst h; exact oidcmp_self a

theorem oidcmp_swap (a b : Oid) : oidcmp a b = -oidcmp b a := by
  induction a generalizing b with
  | nil => cases b <;> simp [oidcmp]
  | cons x xs ih =>
    cases b with
    | nil => simp [oidcmp]
    | cons y ys =>
      by_cases hxy : x < y
      · have hyx : ¬ y < x := Nat.lt_asymm hxy
        simp [oidcmp, hxy, hyx]
      · by_cases hyx : y < x
        · simp [oidcmp, hxy, hyx]
        · simp [oidcmp, hxy, hyx, ih ys]

theorem oidcmp_lt_trans {a b c : Oid} (h1 : oidcmp a b < 0) (h2 : oidcmp b c < 0) :
    oidcmp a c < 0 := by
  induction a generalizing b c with
  | nil =>
    cases b with
    | nil => simp [oidcmp] at h1
    | cons y ys =>
      cases c with
      | nil => simp [oidcmp] at h2
      | cons z zs => simp [oidcmp]
  | cons x xs ih =>
    cases b with
    | nil => simp [oidcmp] at h1
    | cons y ys =>
      cases c with
      | nil => simp [oidcmp] at h2
      | cons z zs =>
        simp only [oidcmp] at h1 h2 ⊢
        by_cases hxy : x < y
        · by_cases hyz : y < z
          · have hxz : x < z := Nat.lt_trans hxy hyz
            simp [hxz]
          · by_cases hzy : z < y
            · simp [hyz, hzy] at h2
            · have hyz' : y = z := Nat.le_antisymm (Nat.le_of_not_lt hzy) (Nat.le_of_not_lt hyz)
              subst hyz'
              simp [hxy]
        · by_cases hyx : y < x
          · simp [hxy, hyx] at h1
          · have hxy' : x = y := Nat.le_antisymm (Nat.le_of_not_lt hyx) (Nat.le_of_not_lt hxy)
            subst hxy'
            by_cases hyz : x < z
            · simp [hyz]
            · by_cases hzy : z < x
              · simp [hyz, hzy] at h2
              · simp [hxy, hyx] at h1
                simp [hyz, hzy] at h2 ⊢
                exact ih h1 h2

theorem oidLt_trans {a b c : Oid} (h1 : oidLt a b) (h2 : oidLt b c) : oidLt a c :=
  oidcmp_lt_trans h1 h2

theorem oidLt_irrefl (a : Oid) : ¬ oidLt a a := by
  unfold oidLt; rw [oidcmp_self]; omega

theorem oidcmp_cases (a b : Oid) : oidcmp a b < 0 ∨ oidcmp a b = 0 ∨ 0 < oidcmp a b := by
  omega

theorem oidLe_total (a b : Oid) : oidLe a b ∨ oidLe b a := by
  unfold oidLe
  rcases oidcmp_cases a b with h | h | h
  · left; omega
  · left; omega
  · right; rw [oidcmp_swap]; omega

theorem oidLe_antisymm {a b : Oid} (h1 : oidLe a b) (h2 : oidLe b a) : a = b := by
  unfold oidLe at *
  rw [oidcmp_swap] at h2
  exact oidcmp_eq_zero_iff.mp (by omega)

theorem oidLe_trans {a b c : Oid} (h1 : oidLe a b) (h2 : oidLe b c) : oidLe a c := by
  unfold oidLe at *
  rcases oidcmp_cases a b with ha | ha | ha
  · rcases oidcmp_cases b c with hb | hb | hb
    · exact le_of_lt (oidLt_trans ha hb)
    · rw [oidcmp_eq_zero_iff.mp hb] at ha; omega
    · omega
  · rw [oidcmp_eq_zero_iff.mp ha]; exact h2
  · omega

instance : IsTotal Oid oidLe := ⟨oidLe_total⟩

instance : IsTrans Oid oidLe := ⟨fun _ _ _ => oidLe_trans⟩

instance : IsAntisymm Oid oidLe := ⟨fun _ _ => oidLe_antisymm⟩

theorem oidLt_of_oidLe_of_ne {a b : Oid} (h : oidLe a b) (hne : a ≠ b) : oidLt a b := by
  unfold oidLe at h
  unfold oidLt
  rcases oidcmp_cases a b with h' | h' | h'
  · exact h'
  · exact absurd (oidcmp_eq_zero_iff.mp h') hne
  · omega

theorem oidLt_asymm {a b : Oid} (h : oidLt a b) : ¬ oidLt b a := by
  intro h'
  exact oidLt_irrefl a (oidLt_trans h h')

theorem oidLe_of_oidLt {a b : Oid} (h : oidLt a b) : oidLe a b := le_of_lt h

theorem oidLt_ne {a b : Oid} (h : oidLt a b) : a ≠ b := by
  intro he; subst he; exact oidLt_irrefl a h


theorem getD_eq_getElem_of_lt {α : Type} [Inhabited α] (l : List α) {n : Nat}
    (h : n < l.length) : l.getD n default = l[n] := by
  rw [List.getD_eq_getElem?_getD, List.getElem?_eq_getElem h, Option.getD_some]

theorem tableSorted_oidLt {cs : List Commit} (hs : tableSorted cs) {i j : Nat}
    (hij : i < j) (hj : j < cs.length) :
    oidLt (cs.getD i default).oid (cs.getD j default).oid := by
  have hi : i < cs.length := Nat.lt_trans hij hj
  rw [getD_eq_getElem_of_lt cs hi, getD_eq_getElem_of_lt cs hj]
  have := (List.pairwise_iff_getElem.mp hs) i j
    (by simpa using hi) (by simpa using hj) hij
  simpa using this

theorem tableSorted_oid_inj {cs : List Commit} (hs : tableSorted cs) {i j : Nat}
    (hi : i < cs.length) (hj : j < cs.length)
    (h : (cs.getD i default).oid = (cs.getD j default).oid) : i = j := by
  rcases Nat.lt_trichotomy i j with hlt | heq | hgt
  · exact absurd h (oidLt_ne (tableSorted_oidLt hs hlt hj))
  · exact heq
  · exact absurd h.symm (oidLt_ne (tableSorted_oidLt hs hgt hi))

/-- Soundness of the `commit_pos` loop: a successful search returns an
in-range index holding the searched identifier. (No sortedness needed.) -/
theorem commitPosGo_some_spec {cs : List Commit} {o : Oid} (first last i : Nat)
    (hlast : last ≤ cs.length) (h : commitPosGo cs o first last = some i) :
    i < cs.length ∧ (cs.getD i default).oid = o ∧ first ≤ i ∧ i < last := by
  induction first, last using commitPosGo.induct cs o with
  | case1 first last hfl heq =>
    rw [commitPosGo, dif_pos hfl, if_pos heq] at h
    have hi := Option.some.inj h
    subst hi
    exact ⟨by omega, (oidcmp_eq_zero_iff.mp heq).symm, by omega, by omega⟩
  | case2 first last hfl hne hgt ih =>
    rw [commitPosGo, dif_pos hfl, if_neg hne, if_pos hgt] at h
    have := ih hlast h
    exact ⟨this.1, this.2.1, by omega, this.2.2.2⟩
  | case3 first last hfl hne hngt ih =>
    rw [commitPosGo, dif_pos hfl, if_neg hne, if_neg hngt] at h
    have := ih (by omega) h
    exact ⟨this.1, this.2.1, this.2.2.1, by omega⟩
  | case4 first last hfl =>
    rw [commitPosGo, dif_neg hfl] at h
    exact absurd h (by simp)

/-- A failed search means the identifier is nowhere in the searched range
(this is where sortedness matters). -/
theorem commitPosGo_none_spec {cs : List Commit} {o : Oid} (hs : tableSorted cs)
    (first last : Nat) (hlast : last ≤ cs.length)
    (h : commitPosGo cs o first last = none) :
    ∀ j, first ≤ j → j < last → (cs.getD j default).oid ≠ o := by
  induction first, last using commitPosGo.induct cs o with
  | case1 first last hfl heq =>
    rw [commitPosGo, dif_pos hfl, if_pos heq] at h
    exact absurd h (by simp)
  | case2 first last hfl hne hgt ih =>
    rw [commitPosGo, dif_pos hfl, if_neg hne, if_pos hgt] at h
    intro j hj1 hj2
    have hmid : oidLt (cs.getD (first + (last - first) / 2) default).oid o := by
      unfold oidLt
      rw [oidcmp_swap]
      omega
    by_cases hjm : first + (last - first) / 2 + 1 ≤ j
    · exact ih hlast h j hjm hj2
    · have hj3 : j ≤ first + (last - first) / 2 := by omega
      rcases Nat.lt_or_ge j (first + (last - first) / 2) with hlt | hge
      · have hmidlen : first + (last - first) / 2 < cs.length := by omega
        exact (oidLt_ne (oidLt_trans (tableSorted_oidLt hs hlt hmidlen) hmid))
      · have hje : j = first + (last - first) / 2 := by omega
        rw [hje]
        exact oidLt_ne hmid
  | case3 first last hfl hne hngt ih =>
    rw [commitPosGo, dif_pos hfl, if_neg hne, if_neg hngt] at h
    intro j hj1 hj2
    have hmid : oidLt o (cs.getD (first + (last - first) / 2) default).oid := by
      unfold oidLt
      omega
    by_cases hjm : j < first + (last - first) / 2
    · exact ih (by omega) h j hj1 hjm
    · rcases Nat.lt_or_ge (first + (last - first) / 2) j with hlt | hge
      · exact fun he =>
          (oidLt_ne (oidLt_trans hmid (tableSorted_oidLt hs hlt (by omega)))) he.symm
      · have hje : j = first + (last - first) / 2 := by omega
        rw [hje]
        exact fun he => (oidLt_ne hmid) he.symm
  | case4 first last hfl =>
    intro j hj1 hj2
    omega

theorem tableIndexOf_lt_length {p : Oid} {cs : List Commit}
    (hp : p ∈ cs.map Commit.oid) : tableIndexOf p cs < cs.length := by
  induction cs with
  | nil => simp at hp
  | cons c cs ih =>
    by_cases hc : c.oid = p
    · simp [tableIndexOf, hc]
    · have hp' : p ∈ cs.map Commit.oid := by
        rcases List.mem_map.mp hp with ⟨d, hd, hdo⟩
        rcases List.mem_cons.mp hd with hd1 | hd1
        · exact absurd (hd1 ▸ hdo) hc
        · exact hdo ▸ List.mem_map_of_mem Commit.oid hd1
      simp only [tableIndexOf, if_neg hc, List.length_cons]
      exact Nat.succ_lt_succ (ih hp')

theorem tableIndexOf_oid {p : Oid} {cs : List Commit}
    (hp : p ∈ cs.map Commit.oid) :
    (cs.getD (tableIndexOf p cs) default).oid = p := by
  induction cs with
  | nil => simp at hp
  | cons c cs ih =>
    by_cases hc : c.oid = p
    · simp [tableIndexOf, hc]
    · have hp' : p ∈ cs.map Commit.oid := by
        rcases List.mem_map.mp hp with ⟨d, hd, hdo⟩
        rcases List.mem_cons.mp hd with hd1 | hd1
        · exact absurd (hd1 ▸ hdo) hc
        · exact hdo ▸ List.mem_map_of_mem Commit.oid hd1
      simp only [tableIndexOf, if_neg hc]
      simpa using ih hp'

/-- On a sorted table, a successful `commit_pos` hits exactly the index
of the identifier in the table. -/
theorem commit_pos_found {cs : List Commit} {p : Oid} (hs : tableSorted cs)
    (hp : p ∈ cs.map Commit.oid) :
    commit_pos cs p = some (tableIndexOf p cs) := by
  have hidx := tableIndexOf_lt_length hp
  have hidx_oid := tableIndexOf_oid hp
  cases hc : commit_pos cs p with
  | none =>
    exact absurd hidx_oid
      (commitPosGo_none_spec hs 0 cs.length le_rfl hc _ (Nat.zero_le _) hidx)
  | some i =>
    have hspec := commitPosGo_some_spec 0 cs.length i le_rfl hc
    have : i = tableIndexOf p cs :=
      tableSorted_oid_inj hs hspec.1 hidx (by rw [hspec.2.1, hidx_oid])
    rw [this]

/-- On a sorted table, `commit_pos` fails exactly when the identifier is
absent. -/
theorem commit_pos_eq_none_iff {cs : List Commit} {p : Oid} (hs : tableSorted cs) :
    commit_pos cs p = none ↔ p ∉ cs.map Commit.oid := by
  constructor
  · intro h hp
    exact commitPosGo_none_spec hs 0 cs.length le_rfl h _ (Nat.zero_le _)
      (tableIndexOf_lt_length hp) (tableIndexOf_oid hp)
  · intro hp
    cases hc : commit_pos cs p with
    | none => rfl
    | some i =>
      have hspec := commitPosGo_some_spec 0 cs.length i le_rfl hc
      exact absurd (by
        rw [← hspec.2.1, getD_eq_getElem_of_lt cs hspec.1]
        exact List.mem_map_of_mem Commit.oid (cs.getElem_mem hspec.1)) hp

/-- On a sorted table the code's lookup agrees with the spec's description. -/
theorem resolveCode_eq_specResolve {cs : List Commit} (hs : tableSorted cs) (p : Oid) :
    resolveCode cs p = specResolve cs p := by
  unfold resolveCode specResolve
  by_cases hp : p ∈ cs.map Commit.oid
  · rw [commit_pos_found hs hp, if_pos hp]
  · rw [if_neg hp, (commit_pos_eq_none_iff hs).mpr hp]

theorem specResolve_lt_two_pow_31 {cs : List Commit} (p : Oid)
    (hN : cs.length ≤ 0x7fffffff) : specResolve cs p < 2 ^ 31 := by
  unfold specResolve
  by_cases hp : p ∈ cs.map Commit.oid
  · rw [if_pos hp]
    have := tableIndexOf_lt_length hp
    omega
  · rw [if_neg hp]
    norm_num [GRAPH_PARENT_MISSING]

/-! ### Claim theorems -/

/-- C10: on an array sorted strictly increasing by identifier, `commit_pos`
returns `some i` (C's `return 1` with `*pos = i`) exactly for the unique
index `i` holding the queried identifier, and `none` (C's `return 0`)
exactly when the identifier does not occur. Totality of `commitPosGo`
(well-founded on `last - first`) is the termination claim. -/
theorem c10_commit_pos_binary_search (cs : List Commit) (o : Oid)
    (hs : tableSorted cs) :
    (∀ i, commit_pos cs o = some i →
      i < cs.length ∧ (cs.getD i default).oid = o ∧
      ∀ j, j < cs.length → (cs.getD j default).oid = o → j = i) ∧
    (commit_pos cs o = none ↔ ∀ j, j < cs.length → (cs.getD j default).oid ≠ o) ∧
    (o ∈ cs.map Commit.oid → commit_pos cs o = some (tableIndexOf o cs)) := by
  refine ⟨?_, ⟨?_, ?_⟩, commit_pos_found hs⟩
  · intro i hi
    have hspec := commitPosGo_some_spec 0 cs.length i le_rfl hi
    exact ⟨hspec.1, hspec.2.1, fun j hj hjo =>
      tableSorted_oid_inj hs hj hspec.1 (by rw [hjo, hspec.2.1])⟩
  · intro h j hj
    exact commitPosGo_none_spec hs 0 cs.length le_rfl h j (Nat.zero_le _) hj
  · intro h
    cases hc : commit_pos cs o with
    | none => rfl
    | some i =>
      have hspec := commitPosGo_some_spec 0 cs.length i le_rfl hc
      exact absurd hspec.2.1 (h i hspec.1)

/-- Witness for C10 at a concrete sorted three-commit table. -/
theorem c10_commit_pos_binary_search_witness :
    tableSorted [⟨[1], [], [], 0⟩, ⟨[2], [], [], 0⟩, ⟨[4], [], [], 0⟩] ∧
    ((∀ i, commit_pos [⟨[1], [], [], 0⟩, ⟨[2], [], [], 0⟩, ⟨[4], [], [], 0⟩] [2] = some i →
      i < ([⟨[1], [], [], 0⟩, ⟨[2], [], [], 0⟩, ⟨[4], [], [], 0⟩] : List Commit).length ∧
      (([⟨[1], [], [], 0⟩, ⟨[2], [], [], 0⟩, ⟨[4], [], [], 0⟩] : List Commit).getD i default).oid = [2] ∧
      ∀ j, j < ([⟨[1], [], [], 0⟩, ⟨[2], [], [], 0⟩, ⟨[4], [], [], 0⟩] : List Commit).length →
        (([⟨[1], [], [], 0⟩, ⟨[2], [], [], 0⟩, ⟨[4], [], [], 0⟩] : List Commit).getD j default).oid = [2] → j = i) ∧
    (commit_pos [⟨[1], [], [], 0⟩, ⟨[2], [], [], 0⟩, ⟨[4], [], [], 0⟩] [2] = none ↔
      ∀ j, j < ([⟨[1], [], [], 0⟩, ⟨[2], [], [], 0⟩, ⟨[4], [], [], 0⟩] : List Commit).length →
        (([⟨[1], [], [], 0⟩, ⟨[2], [], [], 0⟩, ⟨[4], [], [], 0⟩] : List Commit).getD j default).oid ≠ [2]) ∧
    ([2] ∈ ([⟨[1], [], [], 0⟩, ⟨[2], [], [], 0⟩, ⟨[4], [], [], 0⟩] : List Commit).map Commit.oid →
      commit_pos [⟨[1], [], [], 0⟩, ⟨[2], [], [], 0⟩, ⟨[4], [], [], 0⟩] [2] =
        some (tableIndexOf [2] [⟨[1], [], [], 0⟩, ⟨[2], [], [], 0⟩, ⟨[4], [], [], 0⟩]))) :=
  ⟨by decide, c10_commit_pos_binary_search _ [2] (by decide)⟩

/-- C8: the packed date field is the word `(date >> 32) & 0x3` (all other
bits zero, hence `< 4`) followed by the word `date mod 2^32`, and together
they decode to `date mod 2^34`: larger timestamps silently wrap. -/
theorem c8_packed_date (cs : List Commit) (c : Commit) (nle : Nat)
    (_hd : c.date < 2 ^ 64) :
    dataRecord cs c nle =
      c.tree ++ be32 (parent0Slot cs c) ++ be32 (parent1Slot cs c nle) ++
        (be32 (c.date / 2 ^ 32 % 4) ++ be32 (c.date % 2 ^ 32)) ∧
    c.date / 2 ^ 32 % 4 < 4 ∧
    (c.date / 2 ^ 32 % 4) * 2 ^ 32 + c.date % 2 ^ 32 = c.date % 2 ^ 34 := by
  refine ⟨rfl, Nat.mod_lt _ (by norm_num), ?_⟩
  omega

/-- Witness for C8 at a commit whose 64-bit date exceeds 34 bits. -/
theorem c8_packed_date_witness :
    (Commit.date ⟨[1], [2], [], 2 ^ 34 + 7⟩ < 2 ^ 64) ∧
    (dataRecord [] ⟨[1], [2], [], 2 ^ 34 + 7⟩ 0 =
      Commit.tree ⟨[1], [2], [], 2 ^ 34 + 7⟩ ++
        be32 (parent0Slot [] ⟨[1], [2], [], 2 ^ 34 + 7⟩) ++
        be32 (parent1Slot [] ⟨[1], [2], [], 2 ^ 34 + 7⟩ 0) ++
        (be32 (Commit.date ⟨[1], [2], [], 2 ^ 34 + 7⟩ / 2 ^ 32 % 4) ++
          be32 (Commit.date ⟨[1], [2], [], 2 ^ 34 + 7⟩ % 2 ^ 32)) ∧
      Commit.date ⟨[1], [2], [], 2 ^ 34 + 7⟩ / 2 ^ 32 % 4 < 4 ∧
      Commit.date ⟨[1], [2], [], 2 ^ 34 + 7⟩ / 2 ^ 32 % 4 * 2 ^ 32 +
          Commit.date ⟨[1], [2], [], 2 ^ 34 + 7⟩ % 2 ^ 32 =
        Commit.date ⟨[1], [2], [], 2 ^ 34 + 7⟩ % 2 ^ 34) :=
  ⟨by decide, c8_packed_date [] ⟨[1], [2], [], 2 ^ 34 + 7⟩ 0 (by decide)⟩

set_option maxRecDepth 40000 in
/-- C7: the empty input yields an empty table, zero overflow edges, three
chunks, an all-zero FANOUT, empty DATA and OVERFLOW chunks, and a file of
exactly `8 + 4*12 + 1024 + 20` bytes. -/
theorem c7_empty_input (store : Oid → CommitData) (hash : List Nat → List Nat)
    (hlen : ∀ b, (hash b).length = 20) :
    commitTable store [] = [] ∧
    numLongEdges (commitTable store []) = 0 ∧
    numChunksOf (numLongEdges (commitTable store [])) = 3 ∧
    write_graph_chunk_fanout (commitTable store []) = List.replicate 1024 0 ∧
    write_graph_chunk_data (commitTable store []) = [] ∧
    write_graph_chunk_large_edges (commitTable store []) = [] ∧
    (write_commit_graph_body store []).length = 8 + 4 * 12 + 1024 ∧
    (write_commit_graph_file store [] hash).length = 8 + 4 * 12 + 1024 + 20 := by
  have ht : commitTable store [] = [] := rfl
  refine ⟨rfl, rfl, rfl, ?_, rfl, rfl, ?_, ?_⟩
  · rw [ht]; decide
  · unfold write_commit_graph_body; rw [ht]; decide
  · unfold write_commit_graph_file
    rw [List.length_append, hlen]
    unfold write_commit_graph_body; rw [ht]; decide

/-- Witness for C7 with a concrete 20-byte hash function. -/
theorem c7_empty_input_witness :
    (∀ b : List Nat, ((fun _ => List.replicate 20 0) b : List Nat).length = 20) ∧
    (commitTable store0 [] = [] ∧
      numLongEdges (commitTable store0 []) = 0 ∧
      numChunksOf (numLongEdges (commitTable store0 [])) = 3 ∧
      write_graph_chunk_fanout (commitTable store0 []) = List.replicate 1024 0 ∧
      write_graph_chunk_data (commitTable store0 []) = [] ∧
      write_graph_chunk_large_edges (commitTable store0 []) = [] ∧
      (write_commit_graph_body store0 []).length = 8 + 4 * 12 + 1024 ∧
      (write_commit_graph_file store0 [] (fun _ => List.replicate 20 0)).length =
        8 + 4 * 12 + 1024 + 20) :=
  ⟨fun _ => rfl, c7_empty_input store0 (fun _ => List.replicate 20 0) (fun _ => rfl)⟩

set_option maxRecDepth 40000 in
/-- C1 is violated by the code (`code_bug`): the offsets are computed from a
fixed 5-slot lookup-table size (`8 + 60 = 68`), but only `num_chunks + 1`
lookup entries are written. At the empty input (3 chunks) the file records
FANOUT at byte 68 (bytes 12..19 of the file are `be64 68`) while the header
plus the 4 written lookup entries occupy only 56 bytes, so the FANOUT chunk
actually begins at byte 56; likewise the sentinel records 1092 although the
trailer begins at 1080. -/
theorem c1_lookup_offset_mismatch :
    ((write_commit_graph_body store0 []).drop 12).take 8 = [0, 0, 0, 0, 0, 0, 0, 68] ∧
    (chunkOffsets 0 0).getD 0 0 = 68 ∧
    write_commit_graph_body store0 [] =
      (graphHeader 3 ++ chunkLookupBytes 3 0 0) ++
        (write_graph_chunk_fanout [] ++ write_graph_chunk_oids [] ++
          write_graph_chunk_data [] ++ write_graph_chunk_large_edges []) ∧
    (graphHeader 3 ++ chunkLookupBytes 3 0 0).length = 56 ∧
    (chunkOffsets 0 0).getD 3 0 = 1092 ∧
    (write_commit_graph_body store0 []).length = 1080 := by
  refine ⟨by decide, by decide, by decide, by decide, by decide, by decide⟩

/-! ### Sortedness of the built table (C5) and determinism (C9) -/

theorem dedupGo_mem_oidLt {xs : List Oid} :
    ∀ {prev : Oid}, (prev :: xs).Sorted oidLe →
      ∀ y ∈ dedupGo prev xs, oidLt prev y := by
  induction xs with
  | nil => intro prev _ y hy; simp [dedupGo] at hy
  | cons x xs ih =>
    intro prev hs y hy
    have hpx : oidLe prev x := (List.sorted_cons.mp hs).1 x (by simp)
    have hs' : (x :: xs).Sorted oidLe := (List.sorted_cons.mp hs).2
    by_cases hc : oidcmp prev x = 0
    · rw [show dedupGo prev (x :: xs) = dedupGo x xs by simp [dedupGo, hc]] at hy
      rw [oidcmp_eq_zero_iff.mp hc]
      exact ih hs' y hy
    · rw [show dedupGo prev (x :: xs) = x :: dedupGo x xs by simp [dedupGo, hc]] at hy
      have hlt : oidLt prev x :=
        oidLt_of_oidLe_of_ne hpx (fun he => hc (oidcmp_eq_zero_iff.mpr he))
      rcases List.mem_cons.mp hy with h1 | h1
      · rw [h1]; exact hlt
      · exact oidLt_trans hlt (ih hs' y h1)

theorem dedupGo_pairwise {xs : List Oid} :
    ∀ {prev : Oid}, (prev :: xs).Sorted oidLe → (dedupGo prev xs).Pairwise oidLt := by
  induction xs with
  | nil => intro prev _; simp [dedupGo]
  | cons x xs ih =>
    intro prev hs
    have hs' : (x :: xs).Sorted oidLe := (List.sorted_cons.mp hs).2
    by_cases hc : oidcmp prev x = 0
    · rw [show dedupGo prev (x :: xs) = dedupGo x xs by simp [dedupGo, hc]]
      exact ih hs'
    · rw [show dedupGo prev (x :: xs) = x :: dedupGo x xs by simp [dedupGo, hc]]
      exact List.pairwise_cons.mpr ⟨dedupGo_mem_oidLt hs', ih hs'⟩

theorem dedupAdjacent_pairwise {l : List Oid} (hs : l.Sorted oidLe) :
    (dedupAdjacent l).Pairwise oidLt := by
  cases l with
  | nil => simp [dedupAdjacent]
  | cons x xs =>
    simp only [dedupAdjacent]
    exact List.pairwise_cons.mpr ⟨dedupGo_mem_oidLt hs, dedupGo_pairwise hs⟩

theorem dedupGo_sublist (xs : List Oid) :
    ∀ prev, List.Sublist (dedupGo prev xs) xs := by
  induction xs with
  | nil => intro prev; simp [dedupGo]
  | cons x xs ih =>
    intro prev
    by_cases hc : oidcmp prev x = 0
    · rw [show dedupGo prev (x :: xs) = dedupGo x xs by simp [dedupGo, hc]]
      exact (ih x).trans (List.sublist_cons_self x xs)
    · rw [show dedupGo prev (x :: xs) = x :: dedupGo x xs by simp [dedupGo, hc]]
      exact (ih x).cons₂ x

theorem mem_dedupGo_of_mem {xs : List Oid} :
    ∀ {prev y : Oid}, y ∈ xs → y = prev ∨ y ∈ dedupGo prev xs := by
  induction xs with
  | nil => intro prev y hy; simp at hy
  | cons x xs ih =>
    intro prev y hy
    by_cases hc : oidcmp prev x = 0
    · rw [show dedupGo prev (x :: xs) = dedupGo x xs by simp [dedupGo, hc]]
      have hpx : x = prev := (oidcmp_eq_zero_iff.mp hc).symm
      rcases List.mem_cons.mp hy with h1 | h1
      · exact Or.inl (h1.trans hpx)
      · rcases ih h1 with h2 | h2
        · exact Or.inl (h2.trans hpx)
        · exact Or.inr h2
    · rw [show dedupGo prev (x :: xs) = x :: dedupGo x xs by simp [dedupGo, hc]]
      rcases List.mem_cons.mp hy with h1 | h1
      · exact Or.inr (h1 ▸ List.mem_cons_self x _)
      · rcases ih h1 with h2 | h2
        · exact Or.inr (h2 ▸ List.mem_cons_self x _)
        · exact Or.inr (List.mem_cons_of_mem x h2)

theorem mem_dedupAdjacent {l : List Oid} {y : Oid} :
    y ∈ dedupAdjacent l ↔ y ∈ l := by
  cases l with
  | nil => simp [dedupAdjacent]
  | cons x xs =>
    simp only [dedupAdjacent]
    constructor
    · intro hy
      rcases List.mem_cons.mp hy with h1 | h1
      · exact h1 ▸ List.mem_cons_self x xs
      · exact ((dedupGo_sublist xs x).cons x).subset h1
    · intro hy
      rcases List.mem_cons.mp hy with h1 | h1
      · exact h1 ▸ List.mem_cons_self x _
      · rcases mem_dedupGo_of_mem h1 with h2 | h2
        · exact h2 ▸ List.mem_cons_self x _
        · exact List.mem_cons_of_mem x h2

theorem commitTable_map_oid (store : Oid → CommitData) (l : List Oid) :
    (commitTable store l).map Commit.oid = dedupAdjacent (sortOids l) := by
  unfold commitTable
  rw [List.map_map]
  have h : Commit.oid ∘ lookupCommit store = id := funext fun o => rfl
  rw [h, List.map_id]

theorem commitTable_sorted (store : Oid → CommitData) (l : List Oid) :
    tableSorted (commitTable store l) := by
  unfold tableSorted
  rw [commitTable_map_oid]
  exact dedupAdjacent_pairwise (List.sorted_insertionSort oidLe l)

/-- C5: for every collected identifier list (duplicates allowed), the built
commit table is strictly increasing by byte-lexicographic identifier order
(hence duplicate-free), its identifiers are exactly the distinct input
identifiers, and the OID_LOOKUP chunk is their concatenation in that
order. -/
theorem c5_table_strictly_increasing (store : Oid → CommitData) (l : List Oid) :
    ((commitTable store l).map Commit.oid).Pairwise oidLt ∧
    (commitTable store l).map Commit.oid = dedupAdjacent (sortOids l) ∧
    (∀ o : Oid, o ∈ (commitTable store l).map Commit.oid ↔ o ∈ l) ∧
    write_graph_chunk_oids (commitTable store l) =
      ((commitTable store l).map Commit.oid).flatten := by
  refine ⟨commitTable_sorted store l, commitTable_map_oid store l, ?_, ?_⟩
  · intro o
    rw [commitTable_map_oid, mem_dedupAdjacent]
    exact List.mem_insertionSort oidLe
  · rw [write_graph_chunk_oids, List.flatMap_def]

/-- C9: the written byte sequence, and hence the content-addressed final
basename, is a function of the collected identifier multiset and the store
alone: runs over identical (or merely reordered) collected identifiers
produce byte-identical files and identical names. -/
theorem c9_determinism (store : Oid → CommitData) (hash : List Nat → List Nat)
    (l1 l2 : List Oid) (hperm : l1.Perm l2) :
    write_commit_graph_body store l1 = write_commit_graph_body store l2 ∧
    write_commit_graph_file store l1 hash = write_commit_graph_file store l2 hash ∧
    graphFileName store l1 hash = graphFileName store l2 hash := by
  have hsort : sortOids l1 = sortOids l2 :=
    List.eq_of_perm_of_sorted
      (((List.perm_insertionSort oidLe l1).trans hperm).trans
        (List.perm_insertionSort oidLe l2).symm)
      (List.sorted_insertionSort oidLe l1) (List.sorted_insertionSort oidLe l2)
  unfold write_commit_graph_file graphFileName write_commit_graph_body commitTable
  rw [hsort]
  exact ⟨rfl, rfl, rfl⟩

/-- Witness for C9 on two permuted two-identifier inputs. -/
theorem c9_determinism_witness :
    ([[5], [3]] : List Oid).Perm [[3], [5]] ∧
    (write_commit_graph_body store0 [[5], [3]] =
        write_commit_graph_body store0 [[3], [5]] ∧
      write_commit_graph_file store0 [[5], [3]] (fun _ => List.replicate 20 0) =
        write_commit_graph_file store0 [[3], [5]] (fun _ => List.replicate 20 0) ∧
      graphFileName store0 [[5], [3]] (fun _ => List.replicate 20 0) =
        graphFileName store0 [[3], [5]] (fun _ => List.replicate 20 0)) :=
  ⟨by decide, c9_determinism store0 (fun _ => List.replicate 20 0) _ _ (by decide)⟩

/-! ### DATA chunk structure (C2, C4) -/

theorem drop_take_middle {pre mid rest : List Nat} {k m : Nat}
    (hpre : pre.length = k) (hmid : mid.length = m) :
    ((pre ++ (mid ++ rest)).drop k).take m = mid := by
  rw [List.drop_left' hpre, List.take_left' hmid]

theorem table_split {cs : List Commit} {j : Nat} (hj : j < cs.length) :
    cs = cs.take j ++ cs.getD j default :: cs.drop (j + 1) := by
  conv_lhs => rw [← List.take_append_drop j cs]
  congr 1
  rw [getD_eq_getElem_of_lt cs hj]
  exact List.drop_eq_getElem_cons hj

theorem getD_mem_of_lt {α : Type} [Inhabited α] {l : List α} {n : Nat}
    (h : n < l.length) : l.getD n default ∈ l := by
  rw [getD_eq_getElem_of_lt l h]
  exact l.getElem_mem h

theorem dataRecord_length {cs : List Commit} {c : Commit} {n : Nat}
    (ht : c.tree.length = 20) : (dataRecord cs c n).length = 36 := by
  simp [dataRecord, packedDate, be32, ht]

theorem dataGo_append (cs : List Commit) (l1 l2 : List Commit) (n : Nat) :
    dataGo cs (l1 ++ l2) n =
      dataGo cs l1 n ++ dataGo cs l2 (n + (l1.map largeEdgeCount).sum) := by
  induction l1 generalizing n with
  | nil => simp [dataGo]
  | cons c l1 ih =>
    simp only [List.cons_append, dataGo, List.map_cons, List.sum_cons, List.append_eq]
    rw [ih, List.append_assoc, Nat.add_assoc]

theorem dataGo_length (cs : List Commit) (l : List Commit) (n : Nat)
    (ht : ∀ c ∈ l, c.tree.length = 20) : (dataGo cs l n).length = 36 * l.length := by
  induction l generalizing n with
  | nil => rfl
  | cons c l ih =>
    simp only [dataGo, List.length_append, List.length_cons]
    rw [dataRecord_length (ht c (List.mem_cons_self c l)),
      ih _ (fun d hd => ht d (List.mem_cons_of_mem c hd))]
    ring

theorem dataChunk_drop (cs : List Commit) (j : Nat)
    (ht : ∀ c ∈ cs, c.tree.length = 20) (hj : j < cs.length) :
    (write_graph_chunk_data cs).drop (36 * j) =
      dataRecord cs (cs.getD j default) (edgeSumBefore cs j) ++
        dataGo cs (cs.drop (j + 1))
          (edgeSumBefore cs j + largeEdgeCount (cs.getD j default)) := by
  have hgo : dataGo cs cs 0 =
      dataGo cs (cs.take j ++ cs.getD j default :: cs.drop (j + 1)) 0 := by
    rw [← table_split hj]
  have hlen : (dataGo cs (cs.take j) 0).length = 36 * j := by
    rw [dataGo_length cs _ 0 (fun d hd => ht d (List.mem_of_mem_take hd)),
      List.length_take, Nat.min_eq_left (Nat.le_of_lt hj)]
  rw [write_graph_chunk_data, hgo, dataGo_append, List.drop_left' hlen]
  simp only [dataGo, Nat.zero_add]
  rfl

theorem dataChunk_slot_bytes (cs : List Commit) (j : Nat)
    (ht : ∀ c ∈ cs, c.tree.length = 20) (hj : j < cs.length) :
    ((write_graph_chunk_data cs).drop (36 * j + 20)).take 4 =
      be32 (parent0Slot cs (cs.getD j default)) ∧
    ((write_graph_chunk_data cs).drop (36 * j + 24)).take 4 =
      be32 (parent1Slot cs (cs.getD j default) (edgeSumBefore cs j)) := by
  have htj : (cs.getD j default).tree.length = 20 := ht _ (getD_mem_of_lt hj)
  have hdrop := dataChunk_drop cs j ht hj
  constructor
  · rw [← List.drop_drop, hdrop]
    unfold dataRecord
    rw [List.append_assoc, List.append_assoc, List.append_assoc]
    exact drop_take_middle htj rfl
  · rw [← List.drop_drop, hdrop]
    unfold dataRecord
    rw [List.append_assoc, List.append_assoc, List.append_assoc,
      ← List.append_assoc (cs.getD j default).tree]
    exact drop_take_middle (by rw [List.length_append, htj]; rfl) rfl

theorem parent0Slot_eq_spec {cs : List Commit} (hs : tableSorted cs) (c : Commit) :
    parent0Slot cs c = specParent0 cs c := by
  unfold parent0Slot specParent0
  cases c.parents with
  | nil => rfl
  | cons p rest => exact resolveCode_eq_specResolve hs p

theorem parent1Slot_overflow {cs : List Commit} {c : Commit} (n : Nat)
    (hp : 2 < c.parents.length) :
    parent1Slot cs c n = GRAPH_LARGE_EDGES_NEEDED ||| n := by
  unfold parent1Slot
  match hpp : c.parents with
  | [] => rw [hpp] at hp; simp at hp
  | [p] => rw [hpp] at hp; simp at hp
  | p0 :: p1 :: [] => rw [hpp] at hp; simp at hp
  | p0 :: p1 :: q :: qs => rfl

theorem edgeRunGo_length (cs : List Commit) (ps : List Oid) :
    (edgeRunGo cs ps).length = ps.length := by
  induction ps with
  | nil => rfl
  | cons p rest ih =>
    cases rest with
    | nil => rfl
    | cons q rest2 =>
      simp only [edgeRunGo, List.length_cons]
      rw [ih]
      simp

theorem edgeEntriesFor_length (cs : List Commit) (c : Commit) :
    (edgeEntriesFor cs c).length = largeEdgeCount c := by
  unfold edgeEntriesFor largeEdgeCount
  by_cases hc : c.parents.length ≤ 2
  · rw [if_pos hc, if_neg (by omega)]
    rfl
  · rw [if_neg hc, if_pos (by omega), edgeRunGo_length, List.length_drop]

theorem edgesEntries_split {cs : List Commit} {j : Nat} (hj : j < cs.length) :
    edgesEntries cs =
      (cs.take j).flatMap (edgeEntriesFor cs) ++
        (edgeEntriesFor cs (cs.getD j default) ++
          (cs.drop (j + 1)).flatMap (edgeEntriesFor cs)) := by
  have hsplit : cs.flatMap (edgeEntriesFor cs) =
      (cs.take j ++ cs.getD j default :: cs.drop (j + 1)).flatMap (edgeEntriesFor cs) := by
    rw [← table_split hj]
  rw [edgesEntries, hsplit, List.flatMap_append, List.flatMap_cons]

theorem edgeSumBefore_eq_entries_length (cs : List Commit) (j : Nat) :
    edgeSumBefore cs j = ((cs.take j).flatMap (edgeEntriesFor cs)).length := by
  rw [edgeSumBefore, List.length_flatMap]
  congr 1
  exact (List.map_congr_left fun c _ => (edgeEntriesFor_length cs c).symm)

/-- C2: for a commit with more than two parents, the Parent-1 slot bytes in
the DATA chunk are the big-endian encoding of `0x80000000` OR'd with the
running overflow counter, which equals the sum of `parent_count - 1` over
the earlier table commits with more than two parents, and which is exactly
the position of this commit's first entry in the OVERFLOW_EDGES chunk. -/
theorem c2_overflow_pointer (cs : List Commit) (ht : ∀ c ∈ cs, c.tree.length = 20)
    (j : Nat) (hj : j < cs.length) (hp : 2 < (cs.getD j default).parents.length) :
    ((write_graph_chunk_data cs).drop (36 * j + 24)).take 4 =
      be32 (GRAPH_LARGE_EDGES_NEEDED ||| edgeSumBefore cs j) ∧
    edgeSumBefore cs j =
      ((cs.take j).map (fun c =>
        if 2 < c.parents.length then c.parents.length - 1 else 0)).sum ∧
    edgeSumBefore cs j = ((cs.take j).flatMap (edgeEntriesFor cs)).length ∧
    edgesEntries cs =
      (cs.take j).flatMap (edgeEntriesFor cs) ++
        (edgeEntriesFor cs (cs.getD j default) ++
          (cs.drop (j + 1)).flatMap (edgeEntriesFor cs)) := by
  refine ⟨?_, rfl, edgeSumBefore_eq_entries_length cs j, edgesEntries_split hj⟩
  rw [(dataChunk_slot_bytes cs j ht hj).2, parent1Slot_overflow _ hp]

/-- Witness for C2: a three-commit table whose last commit has three
parents; its Parent-1 slot points at overflow position 0. -/
theorem c2_overflow_pointer_witness :
    (∀ c ∈ ([⟨[1], List.replicate 20 0, [], 0⟩, ⟨[2], List.replicate 20 0, [], 0⟩,
        ⟨[3], List.replicate 20 0, [[1], [2], [9]], 5⟩] : List Commit),
      (Commit.tree c).length = 20) ∧
    (2 : Nat) < 3 ∧
    (((write_graph_chunk_data ([⟨[1], List.replicate 20 0, [], 0⟩,
          ⟨[2], List.replicate 20 0, [], 0⟩,
          ⟨[3], List.replicate 20 0, [[1], [2], [9]], 5⟩] : List Commit)).drop
            (36 * 2 + 24)).take 4 =
        be32 (GRAPH_LARGE_EDGES_NEEDED |||
          edgeSumBefore ([⟨[1], List.replicate 20 0, [], 0⟩,
            ⟨[2], List.replicate 20 0, [], 0⟩,
            ⟨[3], List.replicate 20 0, [[1], [2], [9]], 5⟩] : List Commit) 2)) :=
  ⟨by decide, by decide,
    (c2_overflow_pointer _ (by decide) 2 (by decide) (by decide)).1⟩

/-- C4: the Parent-0 slot bytes of every DATA record encode
`0x70000000` for a parentless commit, the first parent's table index when
present in the table, and `0x7FFFFFFF` otherwise; the DATA chunk is still
written in full (36 bytes per commit) regardless of missing parents. -/
theorem c4_parent0_slot (cs : List Commit) (hs : tableSorted cs)
    (ht : ∀ c ∈ cs, c.tree.length = 20) (j : Nat) (hj : j < cs.length) :
    ((write_graph_chunk_data cs).drop (36 * j + 20)).take 4 =
      be32 (specParent0 cs (cs.getD j default)) ∧
    specParent0 cs (cs.getD j default) =
      (match (cs.getD j default).parents with
        | [] => GRAPH_PARENT_NONE
        | p :: _ =>
          if p ∈ cs.map Commit.oid then tableIndexOf p cs else GRAPH_PARENT_MISSING) ∧
    (write_graph_chunk_data cs).length = 36 * cs.length := by
  refine ⟨?_, rfl, dataGo_length cs cs 0 ht⟩
  rw [(dataChunk_slot_bytes cs j ht hj).1, parent0Slot_eq_spec hs]

/-- Witness for C4: a table whose second commit's sole parent is absent
from the table — the slot is `PARENT_MISSING` and the chunk is complete. -/
theorem c4_parent0_slot_witness :
    tableSorted ([⟨[1], List.replicate 20 0, [], 0⟩,
      ⟨[2], List.replicate 20 0, [[9]], 0⟩] : List Commit) ∧
    (∀ c ∈ ([⟨[1], List.replicate 20 0, [], 0⟩,
      ⟨[2], List.replicate 20 0, [[9]], 0⟩] : List Commit), (Commit.tree c).length = 20) ∧
    (((write_graph_chunk_data ([⟨[1], List.replicate 20 0, [], 0⟩,
      ⟨[2], List.replicate 20 0, [[9]], 0⟩] : List Commit)).drop (36 * 1 + 20)).take 4 =
        be32 (specParent0 ([⟨[1], List.replicate 20 0, [], 0⟩,
      ⟨[2], List.replicate 20 0, [[9]], 0⟩] : List Commit) (([⟨[1], List.replicate 20 0, [], 0⟩,
      ⟨[2], List.replicate 20 0, [[9]], 0⟩] : List Commit).getD 1 default)) ∧
      specParent0 ([⟨[1], List.replicate 20 0, [], 0⟩,
      ⟨[2], List.replicate 20 0, [[9]], 0⟩] : List Commit) (([⟨[1], List.replicate 20 0, [], 0⟩,
      ⟨[2], List.replicate 20 0, [[9]], 0⟩] : List Commit).getD 1 default) =
        (match (([⟨[1], List.replicate 20 0, [], 0⟩,
      ⟨[2], List.replicate 20 0, [[9]], 0⟩] : List Commit).getD 1 default).parents with
          | [] => GRAPH_PARENT_NONE
          | p :: _ =>
            if p ∈ ([⟨[1], List.replicate 20 0, [], 0⟩,
      ⟨[2], List.replicate 20 0, [[9]], 0⟩] : List Commit).map Commit.oid then tableIndexOf p ([⟨[1], List.replicate 20 0, [], 0⟩,
      ⟨[2], List.replicate 20 0, [[9]], 0⟩] : List Commit)
            else GRAPH_PARENT_MISSING) ∧
      (write_graph_chunk_data ([⟨[1], List.replicate 20 0, [], 0⟩,
      ⟨[2], List.replicate 20 0, [[9]], 0⟩] : List Commit)).length = 36 * ([⟨[1], List.replicate 20 0, [], 0⟩,
      ⟨[2], List.replicate 20 0, [[9]], 0⟩] : List Commit).length) :=
  ⟨by decide, by decide,
    by
      have h := c4_parent0_slot ([⟨[1], List.replicate 20 0, [], 0⟩,
      ⟨[2], List.replicate 20 0, [[9]], 0⟩] : List Commit) (by decide) (by decide) 1 (by decide)
      exact ⟨h.1, h.2.1, h.2.2⟩⟩

/-! ### OVERFLOW_EDGES run structure (C3) -/

theorem edgeRunGo_shape (cs : List Commit) (ps : List Oid) (q : Oid) :
    edgeRunGo cs (ps ++ [q]) =
      ps.map (resolveCode cs) ++ [resolveCode cs q ||| GRAPH_LAST_EDGE] := by
  induction ps with
  | nil => rfl
  | cons p rest ih =>
    cases rest with
    | nil => rfl
    | cons r rest2 =>
      simp only [List.cons_append, List.map_cons] at *
      rw [show edgeRunGo cs (p :: r :: (rest2 ++ [q])) =
          resolveCode cs p :: edgeRunGo cs (r :: (rest2 ++ [q])) from rfl, ih]

/-- C3: each commit with more than two parents contributes, starting at
overflow position `edgeSumBefore`, a run of exactly `parent_count - 1`
entries: the resolved index (or `0x7FFFFFFF`) of each parent after the
first, where only the final entry of the run has bit 31 set. -/
theorem c3_overflow_runs (cs : List Commit) (hs : tableSorted cs)
    (hN : cs.length ≤ 0x7fffffff) (j : Nat) (hj : j < cs.length)
    (hp : 2 < (cs.getD j default).parents.length) :
    ((edgesEntries cs).drop (edgeSumBefore cs j)).take
        ((cs.getD j default).parents.length - 1) =
      edgeEntriesFor cs (cs.getD j default) ∧
    (edgeEntriesFor cs (cs.getD j default)).length =
      (cs.getD j default).parents.length - 1 ∧
    ∃ front lastp, (cs.getD j default).parents.drop 1 = front ++ [lastp] ∧
      edgeEntriesFor cs (cs.getD j default) =
        front.map (specResolve cs) ++ [specResolve cs lastp ||| GRAPH_LAST_EDGE] ∧
      (∀ e ∈ front.map (specResolve cs), e.testBit 31 = false) ∧
      (specResolve cs lastp ||| GRAPH_LAST_EDGE).testBit 31 = true := by
  have hrunlen : (edgeEntriesFor cs (cs.getD j default)).length =
      (cs.getD j default).parents.length - 1 := by
    rw [edgeEntriesFor_length]
    unfold largeEdgeCount
    rw [if_pos hp]
  refine ⟨?_, hrunlen, ?_⟩
  · rw [edgesEntries_split hj, edgeSumBefore_eq_entries_length cs j]
    exact drop_take_middle rfl hrunlen
  · have hex : ∃ front lastp,
        (cs.getD j default).parents.drop 1 = front ++ [lastp] := by
      rcases List.eq_nil_or_concat ((cs.getD j default).parents.drop 1) with hnil | hcat
      · exfalso
        have hlen0 := congrArg List.length hnil
        rw [List.length_drop] at hlen0
        simp only [List.length_nil] at hlen0
        omega
      · rcases hcat with ⟨L, b, hLb⟩
        exact ⟨L, b, by rw [hLb, List.concat_eq_append]⟩
    obtain ⟨front, lastp, hfl⟩ := hex
    refine ⟨front, lastp, hfl, ?_, ?_, ?_⟩
    · unfold edgeEntriesFor
      rw [if_neg (by omega), hfl, edgeRunGo_shape]
      rw [List.map_congr_left fun p _ => resolveCode_eq_specResolve hs p,
        resolveCode_eq_specResolve hs]
    · intro e he
      rcases List.mem_map.mp he with ⟨p, hpm, hpe⟩
      rw [← hpe]
      exact Nat.testBit_eq_false_of_lt (specResolve_lt_two_pow_31 p hN)
    · rw [Nat.testBit_lor]
      have hc : GRAPH_LAST_EDGE.testBit 31 = true := by decide
      rw [hc, Bool.or_true]

/-- Witness for C3: a four-commit table whose last commit has four parents,
the last of them missing from the table. -/
theorem c3_overflow_runs_witness :
    tableSorted ([⟨[1], [], [], 0⟩, ⟨[2], [], [], 0⟩, ⟨[3], [], [], 0⟩,
      ⟨[4], [], [[1], [2], [3], [9]], 0⟩] : List Commit) ∧
    ([⟨[1], [], [], 0⟩, ⟨[2], [], [], 0⟩, ⟨[3], [], [], 0⟩,
      ⟨[4], [], [[1], [2], [3], [9]], 0⟩] : List Commit).length ≤ 0x7fffffff ∧
    (3 : Nat) < 4 ∧
    (2 : Nat) < (([⟨[1], [], [], 0⟩, ⟨[2], [], [], 0⟩, ⟨[3], [], [], 0⟩,
      ⟨[4], [], [[1], [2], [3], [9]], 0⟩] : List Commit).getD 3 default).parents.length ∧
    (((edgesEntries ([⟨[1], [], [], 0⟩, ⟨[2], [], [], 0⟩, ⟨[3], [], [], 0⟩,
          ⟨[4], [], [[1], [2], [3], [9]], 0⟩] : List Commit)).drop
        (edgeSumBefore ([⟨[1], [], [], 0⟩, ⟨[2], [], [], 0⟩, ⟨[3], [], [], 0⟩,
          ⟨[4], [], [[1], [2], [3], [9]], 0⟩] : List Commit) 3)).take
        ((([⟨[1], [], [], 0⟩, ⟨[2], [], [], 0⟩, ⟨[3], [], [], 0⟩,
          ⟨[4], [], [[1], [2], [3], [9]], 0⟩] : List Commit).getD 3
            default).parents.length - 1) =
      edgeEntriesFor ([⟨[1], [], [], 0⟩, ⟨[2], [], [], 0⟩, ⟨[3], [], [], 0⟩,
          ⟨[4], [], [[1], [2], [3], [9]], 0⟩] : List Commit)
        (([⟨[1], [], [], 0⟩, ⟨[2], [], [], 0⟩, ⟨[3], [], [], 0⟩,
          ⟨[4], [], [[1], [2], [3], [9]], 0⟩] : List Commit).getD 3 default)) :=
  ⟨by decide, by decide, by decide, by decide,
    (c3_overflow_runs _ (by decide) (by decide) 3 (by decide) (by decide)).1⟩

/-! ### FANOUT chunk (C6) -/

theorem oidLt_headD_le {a b : Oid} (h : oidLt a b) : a.headD 0 ≤ b.headD 0 := by
  cases a with
  | nil => exact Nat.zero_le _
  | cons x xs =>
    cases b with
    | nil =>
      exfalso
      unfold oidLt at h
      simp [oidcmp] at h
    | cons y ys =>
      simp only [List.headD_cons]
      by_cases hxy : x < y
      · exact Nat.le_of_lt hxy
      · by_cases hyx : y < x
        · exfalso
          unfold oidLt at h
          simp only [oidcmp, if_neg hxy, if_pos hyx] at h
          omega
        · exact Nat.le_of_not_lt hyx

theorem tableSorted_firstByte {cs : List Commit} (hs : tableSorted cs) :
    (cs.map firstByte).Pairwise (· ≤ ·) := by
  unfold tableSorted at hs
  have hmap : cs.map firstByte = (cs.map Commit.oid).map (fun o => o.headD 0) := by
    rw [List.map_map]
    rfl
  rw [hmap]
  exact hs.map _ (fun a b h => oidLt_headD_le h)

theorem takeWhile_length_eq_countLE {cs : List Commit} {i : Nat}
    (hsort : (cs.map firstByte).Pairwise (· ≤ ·))
    (hge : ∀ c ∈ cs, i ≤ firstByte c) :
    (cs.takeWhile (fun c => firstByte c == i)).length = countLE cs i := by
  induction cs with
  | nil => rfl
  | cons c cs ih =>
    rw [List.map_cons] at hsort
    have hhead := (List.pairwise_cons.mp hsort).1
    have hsort' := (List.pairwise_cons.mp hsort).2
    have hgec := hge c (List.mem_cons_self c cs)
    by_cases hc : firstByte c = i
    · rw [List.takeWhile_cons, if_pos (by simp [hc])]
      unfold countLE
      rw [List.filter_cons, if_pos (by simp [hc])]
      simp only [List.length_cons]
      rw [ih hsort' (fun d hd => hge d (List.mem_cons_of_mem c hd))]
      rfl
    · rw [List.takeWhile_cons, if_neg (by simp [hc])]
      unfold countLE
      rw [List.filter_cons, if_neg (by simp; omega)]
      have hnil : List.filter (fun c => decide (firstByte c ≤ i)) cs = [] := by
        apply List.filter_eq_nil_iff.mpr
        intro d hd
        have hcd : firstByte c ≤ firstByte d :=
          hhead _ (List.mem_map_of_mem firstByte hd)
        simp
        omega
      rw [hnil]

theorem dropWhile_all_gt {cs : List Commit} {i : Nat}
    (hsort : (cs.map firstByte).Pairwise (· ≤ ·))
    (hge : ∀ c ∈ cs, i ≤ firstByte c) :
    ∀ c ∈ cs.dropWhile (fun c => firstByte c == i), i + 1 ≤ firstByte c := by
  induction cs with
  | nil => intro c hc; simp [List.dropWhile] at hc
  | cons c cs ih =>
    rw [List.map_cons] at hsort
    have hhead := (List.pairwise_cons.mp hsort).1
    have hsort' := (List.pairwise_cons.mp hsort).2
    have hgec := hge c (List.mem_cons_self c cs)
    by_cases hc : firstByte c = i
    · rw [List.dropWhile_cons, if_pos (by simp [hc])]
      exact ih hsort' (fun d hd => hge d (List.mem_cons_of_mem c hd))
    · rw [List.dropWhile_cons, if_neg (by simp [hc])]
      intro d hd
      rcases List.mem_cons.mp hd with h1 | h1
      · rw [h1]; omega
      · have hcd : firstByte c ≤ firstByte d :=
          hhead _ (List.mem_map_of_mem firstByte h1)
        omega

theorem countLE_split (i : Nat) {cs : List Commit} {b : Nat} (hib : i ≤ b) :
    countLE cs b =
      (cs.takeWhile (fun c => firstByte c == i)).length +
        countLE (cs.dropWhile (fun c => firstByte c == i)) b := by
  conv_lhs =>
    rw [← List.takeWhile_append_dropWhile (fun c => firstByte c == i) cs]
  unfold countLE
  rw [List.filter_append, List.length_append]
  congr 1
  rw [List.filter_eq_self.mpr]
  intro a ha
  have hai := List.mem_takeWhile_imp ha
  simp at hai ⊢
  omega

theorem fanoutGo_spec (n : Nat) :
    ∀ (i count : Nat) (cs : List Commit),
      (cs.map firstByte).Pairwise (· ≤ ·) →
      (∀ c ∈ cs, i ≤ firstByte c) →
      fanoutGo n i count cs =
        (List.range' i n).flatMap (fun b => be32 (count + countLE cs b)) := by
  induction n with
  | zero => intro i count cs _ _; rfl
  | succ n ih =>
    intro i count cs hsort hge
    rw [List.range'_succ, List.flatMap_cons]
    rw [show fanoutGo (n + 1) i count cs =
        be32 (count + (cs.takeWhile (fun c => firstByte c == i)).length) ++
          fanoutGo n (i + 1) (count + (cs.takeWhile (fun c => firstByte c == i)).length)
            (cs.dropWhile (fun c => firstByte c == i)) from rfl]
    have htw := takeWhile_length_eq_countLE hsort hge
    have hsort' : ((cs.dropWhile (fun c => firstByte c == i)).map firstByte).Pairwise
        (· ≤ ·) := hsort.sublist ((List.dropWhile_sublist _).map firstByte)
    have hge' := dropWhile_all_gt hsort hge
    rw [ih (i + 1) _ _ hsort' hge']
    congr 1
    · rw [htw]
    · rw [List.flatMap_def, List.flatMap_def]
      congr 1
      apply List.map_congr_left
      intro b hb
      have hbge : i + 1 ≤ b := by
        rcases List.mem_range'.mp hb with ⟨k, hk, hbk⟩
        omega
      conv_rhs => rw [countLE_split i (by omega : i ≤ b)]
      rw [Nat.add_assoc]

theorem countLE_mono (cs : List Commit) {b1 b2 : Nat} (h : b1 ≤ b2) :
    countLE cs b1 ≤ countLE cs b2 := by
  induction cs with
  | nil => exact le_rfl
  | cons c cs ih =>
    unfold countLE at *
    rw [List.filter_cons, List.filter_cons]
    by_cases h1 : firstByte c ≤ b1
    · rw [if_pos (by simpa using h1), if_pos (by simp; omega)]
      simpa using Nat.succ_le_succ ih
    · rw [if_neg (by simpa using h1)]
      by_cases h2 : firstByte c ≤ b2
      · rw [if_pos (by simpa using h2)]
        simp only [List.length_cons]
        omega
      · rw [if_neg (by simpa using h2)]
        exact ih

/-- C6: on a sorted table with byte-valued fan-out keys, the FANOUT chunk
consists of 256 big-endian words, word `b` counting the commits whose
identifier's first byte is at most `b`; the counts are monotone and count
255 is the table length. -/
theorem c6_fanout (cs : List Commit) (hs : tableSorted cs)
    (hb : ∀ c ∈ cs, firstByte c < 256) :
    write_graph_chunk_fanout cs =
      (List.range 256).flatMap (fun b => be32 (countLE cs b)) ∧
    (∀ b1 b2 : Nat, b1 ≤ b2 → countLE cs b1 ≤ countLE cs b2) ∧
    countLE cs 255 = cs.length := by
  refine ⟨?_, fun b1 b2 h => countLE_mono cs h, ?_⟩
  · rw [write_graph_chunk_fanout,
      fanoutGo_spec 256 0 0 cs (tableSorted_firstByte hs) (fun c _ => Nat.zero_le _),
      List.range_eq_range']
    simp [Nat.zero_add]
  · unfold countLE
    rw [List.filter_eq_self.mpr fun c hc => by
      have := hb c hc
      simp
      omega]

/-- Witness for C6 at a concrete sorted two-commit table. -/
theorem c6_fanout_witness :
    tableSorted ([⟨[0, 1], [], [], 0⟩, ⟨[2, 1], [], [], 0⟩] : List Commit) ∧
    (∀ c ∈ ([⟨[0, 1], [], [], 0⟩, ⟨[2, 1], [], [], 0⟩] : List Commit),
      firstByte c < 256) ∧
    (write_graph_chunk_fanout ([⟨[0, 1], [], [], 0⟩, ⟨[2, 1], [], [], 0⟩] : List Commit) =
        (List.range 256).flatMap (fun b =>
          be32 (countLE ([⟨[0, 1], [], [], 0⟩, ⟨[2, 1], [], [], 0⟩] : List Commit) b)) ∧
      (∀ b1 b2 : Nat, b1 ≤ b2 →
        countLE ([⟨[0, 1], [], [], 0⟩, ⟨[2, 1], [], [], 0⟩] : List Commit) b1 ≤
          countLE ([⟨[0, 1], [], [], 0⟩, ⟨[2, 1], [], [], 0⟩] : List Commit) b2) ∧
      countLE ([⟨[0, 1], [], [], 0⟩, ⟨[2, 1], [], [], 0⟩] : List Commit) 255 =
        ([⟨[0, 1], [], [], 0⟩, ⟨[2, 1], [], [], 0⟩] : List Commit).length) :=
  ⟨by decide, by decide, c6_fanout _ (by decide) (by decide)⟩

end CommitGraph
